import Mathlib

/-!
Shallow embedding of the Bry–Boschan dating procedure from `bb/turningpoint.py`
and `bb/bryboschan.py`.

Modelling conventions:
* A pandas `Period` index position is an `Int` offset on the regular time axis.
  Every `BBSeries` is re-indexed by its constructor to `period_range(start, len)`,
  so a curve is just its list of values with position `i` for index `i`.
* Series values (floats in the source) are modelled as `Rat`.
* `time_diff` is `abs((a.dti - b.dti).n)`, the absolute position difference.
* Python code that raises (indexing an empty list, `idxmax` of an empty slice)
  is modelled with `Option`: `none` is the raised exception.
-/

inductive Kind where
  | P : Kind
  | T : Kind
deriving DecidableEq

/-- `TurningPoint(dti, sta, val)` from `bb/turningpoint.py`: position, status (P/T),
value.  The comparison operators of the Python class compare `val` only. -/
structure TurningPoint where
  dti : Int
  sta : Kind
  val : Rat
deriving DecidableEq

/-- Default used for in-range list indexing (Python raises out of range; every
`getD` below is guarded so the default is never read). -/
def tp0 : TurningPoint := ⟨0, Kind.P, 0⟩

/-- `TurningPoint.time_diff`: `abs((self.dti - other.dti).n)`. -/
def time_diff (a b : TurningPoint) : Int := ((a.dti - b.dti).natAbs : Int)

/-- `alternation_check` (`bb/turningpoint.py` lines 74-100).  Scan with index `i`:
on a same-kind adjacent pair, for peaks `turnings[i] <= turnings[i+1]` pops `i`
(and retests the same index, i.e. recurse on `b :: rest`), otherwise pops `i+1`
and advances `i` (i.e. keep `a` and continue on `rest`); troughs are symmetric
with `>=`. -/
def alternation_check : List TurningPoint → List TurningPoint
  | a :: b :: rest =>
    if a.sta = b.sta then
      match a.sta with
      | Kind.P =>
        if a.val ≤ b.val then alternation_check (b :: rest)
        else a :: alternation_check rest
      | Kind.T =>
        if b.val ≤ a.val then alternation_check (b :: rest)
        else a :: alternation_check rest
    else a :: alternation_check (b :: rest)
  | l => l

/-- The alternation scan only pops elements: its result is a subsequence. -/
def alternation_sublist : ∀ l : List TurningPoint, (alternation_check l).Sublist l
  | [] => List.Sublist.refl _
  | [a] => List.Sublist.refl _
  | a :: b :: rest => by
    rw [alternation_check]
    by_cases hs : a.sta = b.sta
    · simp only [if_pos hs]
      cases hk : a.sta with
      | P =>
        by_cases hv : a.val ≤ b.val
        · simp only [if_pos hv]
          exact (alternation_sublist (b :: rest)).cons a
        · simp only [if_neg hv]
          exact ((alternation_sublist rest).trans (List.sublist_cons_self b rest)).cons₂ a
      | T =>
        by_cases hv : b.val ≤ a.val
        · simp only [if_pos hv]
          exact (alternation_sublist (b :: rest)).cons a
        · simp only [if_neg hv]
          exact ((alternation_sublist rest).trans (List.sublist_cons_self b rest)).cons₂ a
    · simp only [if_neg hs]
      exact (alternation_sublist (b :: rest)).cons₂ a

/-- The index popped by `duration_check` when the pair `(i, i+2)` violates the
minimum duration (`bb/turningpoint.py` lines 53-62).  Peak at `i`:
`turnings[i+2] >= turnings[i]` pops `i`, else pops `i+2`.  Trough at `i`:
`turnings[i] >= turnings[i+1]` pops `i`, else pops `i+1`. -/
def dur_victim (l : List TurningPoint) (i : Nat) : Nat :=
  if (l.getD i tp0).sta = Kind.P then
    if (l.getD i tp0).val ≤ (l.getD (i + 2) tp0).val then i else i + 2
  else
    if (l.getD (i + 1) tp0).val ≤ (l.getD i tp0).val then i else i + 1

/-- `duration_check`'s while-loop (`bb/turningpoint.py` lines 48-71) with its
current index `i`.  On a violation it pops `dur_victim`, reassigns
`turnings = alternation_check(turnings)` and `turnings = duration_check(turnings)`
(a restart from index 0), then continues the loop at the same `i`; otherwise it
advances `i`.  The return value carries the proof that only pops happened, which
also bounds the recursion. -/
def durationAux (min_dur : Int) (i : Nat) (l : List TurningPoint) :
    {r : List TurningPoint // r.Sublist l} :=
  if h : i + 2 < l.length then
    if time_diff (l.getD i tp0) (l.getD (i + 2) tp0) < min_dur then
      let l1 := l.eraseIdx (dur_victim l i)
      let l2 := alternation_check l1
      have hl2 : l2.Sublist l := (alternation_sublist l1).trans (List.eraseIdx_sublist l _)
      have hlen2 : l2.length < l.length := by
        have h1 : l1.length < l.length := by
          have hv : dur_victim l i < l.length := by
            unfold dur_victim; split <;> split <;> omega
          rw [List.length_eraseIdx]
          simp only [hv, if_pos]
          omega
        exact Nat.lt_of_le_of_lt (alternation_sublist l1).length_le h1
      let l3 := durationAux min_dur 0 l2
      have hl3 : l3.val.Sublist l := l3.property.trans hl2
      have hlen3 : l3.val.length < l.length :=
        Nat.lt_of_le_of_lt l3.property.length_le hlen2
      let r := durationAux min_dur i l3.val
      ⟨r.val, r.property.trans hl3⟩
    else
      durationAux min_dur (i + 1) l
  else
    ⟨l, List.Sublist.refl l⟩
termination_by (l.length, l.length - i)
decreasing_by
  · exact Prod.Lex.left _ _ hlen2
  · exact Prod.Lex.left _ _ hlen3
  · exact Prod.Lex.right l.length (by omega)

/-- `duration_check(turnings, min_dur)`: run the scan from index 0. -/
def duration_check (min_dur : Int) (l : List TurningPoint) : List TurningPoint :=
  (durationAux min_dur 0 l).val

/-- `phase_check`'s while-loop (`bb/turningpoint.py` lines 114-125) with its
current index `i`.  On a violation of the minimum phase it pops `i+1`, reapplies
`alternation_check` and restarts `phase_check` from 0, then continues at the
same `i`; otherwise it advances. -/
def phaseAux (min_pha : Int) (i : Nat) (l : List TurningPoint) :
    {r : List TurningPoint // r.Sublist l} :=
  if h : i + 1 < l.length then
    if time_diff (l.getD i tp0) (l.getD (i + 1) tp0) < min_pha then
      let l1 := l.eraseIdx (i + 1)
      let l2 := alternation_check l1
      have hl2 : l2.Sublist l := (alternation_sublist l1).trans (List.eraseIdx_sublist l _)
      have hlen2 : l2.length < l.length := by
        have h1 : l1.length < l.length := by
          rw [List.length_eraseIdx]
          simp only [h, if_pos]
          omega
        exact Nat.lt_of_le_of_lt (alternation_sublist l1).length_le h1
      let l3 := phaseAux min_pha 0 l2
      have hl3 : l3.val.Sublist l := l3.property.trans hl2
      have hlen3 : l3.val.length < l.length :=
        Nat.lt_of_le_of_lt l3.property.length_le hlen2
      let r := phaseAux min_pha i l3.val
      ⟨r.val, r.property.trans hl3⟩
    else
      phaseAux min_pha (i + 1) l
  else
    ⟨l, List.Sublist.refl l⟩
termination_by (l.length, l.length - i)
decreasing_by
  · exact Prod.Lex.left _ _ hlen2
  · exact Prod.Lex.left _ _ hlen3
  · exact Prod.Lex.right l.length (by omega)

/-- `phase_check(turnings, min_pha)`: run the scan from index 0. -/
def phase_check (min_pha : Int) (l : List TurningPoint) : List TurningPoint :=
  (phaseAux min_pha 0 l).val

/-- `curve.beginDate`: the first index position.  Every `BBSeries` is re-indexed
from the same start, so position 0. -/
def beginDate (_curve : List Rat) : Int := 0

/-- `curve.endDate`: the last index position, `len - 1`. -/
def endDate (curve : List Rat) : Int := (curve.length : Int) - 1

/-- `start_end_check(turnings, curve, min_boudary)` (`bb/turningpoint.py` lines
128-148): drop the first point if it is within `min_boudary` of the series
start, then drop the (new) last point if within `min_boudary` of the series
end.  `turnings[0]` on an empty list raises IndexError, and so does
`turnings[-1]` when the first pop emptied the list: both are `none`. -/
def start_end_check (turnings : List TurningPoint) (curve : List Rat)
    (min_boudary : Int) : Option (List TurningPoint) :=
  match turnings.head? with
  | none => none
  | some first =>
    let l1 := if first.dti < beginDate curve + min_boudary then turnings.tail else turnings
    match l1.getLast? with
    | none => none
    | some last =>
      some (if endDate curve - min_boudary < last.dti then l1.dropLast else l1)

/-- The scan positions `self.series.index[width:-width]` of `_maxima`/`_minima`:
positions `width, ..., n - width - 1` (empty when `width = 0`, since the Python
slice `[0:-0]` is empty, and when `n ≤ 2*width`). -/
def scanIdxs (n w : Nat) : List Nat :=
  if w = 0 then [] else ((List.range n).drop w).take (n - 2 * w)

/-- Label slicing `series[lo:hi]` on a re-indexed curve: the `(position, value)`
pairs with `lo ≤ position ≤ hi` (pandas label slices are inclusive of both ends
and clip to the available range). -/
def series_slice (s : List Rat) (lo hi : Int) : List (Int × Rat) :=
  (List.range s.length).filterMap fun (j : Nat) =>
    if lo ≤ (j : Int) ∧ (j : Int) ≤ hi then some ((j : Int), s.getD j 0) else none

/-- The values of a label slice (used by `max(...)`/`min(...)` in `_maxima` and
`_minima`). -/
def series_slice_vals (s : List Rat) (lo hi : Int) : List Rat :=
  (series_slice s lo hi).map Prod.snd

/-- `BBSeries._maxima(width)`: for each scan position `i`, emit a Peak when
`max(series[i-width:i+width]) == series[i]`. -/
def maxima (s : List Rat) (width : Nat) : List TurningPoint :=
  (scanIdxs s.length width).filterMap fun (i : Nat) =>
    if (series_slice_vals s ((i : Int) - width) ((i : Int) + width)).max? = some (s.getD i 0)
    then some ⟨(i : Int), Kind.P, s.getD i 0⟩ else none

/-- `BBSeries._minima(width)`: for each scan position `i`, emit a Trough when
`min(series[i-width:i+width]) == series[i]`. -/
def minima (s : List Rat) (width : Nat) : List TurningPoint :=
  (scanIdxs s.length width).filterMap fun (i : Nat) =>
    if (series_slice_vals s ((i : Int) - width) ((i : Int) + width)).min? = some (s.getD i 0)
    then some ⟨(i : Int), Kind.T, s.getD i 0⟩ else none

/-- Stable insertion by `dti` (a new element goes after existing elements with
the same key), modelling Python's stable `sorted(..., key=lambda x: x.dti)`. -/
def insertTP (x : TurningPoint) : List TurningPoint → List TurningPoint
  | [] => [x]
  | y :: ys => if y.dti ≤ x.dti then y :: insertTP x ys else x :: y :: ys

/-- Stable sort by `dti` (insertion sort, processing elements left to right). -/
def sortByDti (l : List TurningPoint) : List TurningPoint :=
  l.foldl (fun acc x => insertTP x acc) []

/-- `BBSeries.get_turnings(width)`: peaks and troughs merged and sorted by time. -/
def get_turnings (s : List Rat) (width : Nat) : List TurningPoint :=
  sortByDti (maxima s width ++ minima s width)

/-- First pair attaining the running maximum value (strictly greater replaces),
the accumulator form of pandas `Series.idxmax` (first occurrence of the max). -/
def idxmaxAux (best : Int × Rat) : List (Int × Rat) → Int × Rat
  | [] => best
  | y :: ys => idxmaxAux (if best.2 < y.2 then y else best) ys

/-- `temp.idxmax()` together with `temp[id]`: the first `(position, value)` of the
slice attaining the maximum value; raises (i.e. `none`) on an empty slice. -/
def series_idxmax : List (Int × Rat) → Option (Int × Rat)
  | [] => none
  | x :: xs => some (idxmaxAux x xs)

/-- First pair attaining the running minimum value. -/
def idxminAux (best : Int × Rat) : List (Int × Rat) → Int × Rat
  | [] => best
  | y :: ys => idxminAux (if y.2 < best.2 then y else best) ys

/-- `temp.idxmin()` together with `temp[id]`. -/
def series_idxmin : List (Int × Rat) → Option (Int × Rat)
  | [] => none
  | x :: xs => some (idxminAux x xs)

/-- One step of `BBSeries.re_apply` (`bb/bryboschan.py` lines 142-146): slice the
new curve around `p.dti`, locate the max (Peak) or min (Trough), and rebuild the
point there with the same kind. -/
def relocate (s : List Rat) (width : Nat) (p : TurningPoint) : Option TurningPoint :=
  let temp := series_slice s (p.dti - width) (p.dti + width)
  Option.map (fun best => ⟨best.1, p.sta, best.2⟩)
    (if p.sta = Kind.P then series_idxmax temp else series_idxmin temp)

/-- The `for p in turnings` loop of `re_apply`, appending in order. -/
def re_applyAux (s : List Rat) (width : Nat) : List TurningPoint → Option (List TurningPoint)
  | [] => some []
  | p :: ps =>
    match relocate s width p with
    | none => none
    | some q =>
      match re_applyAux s width ps with
      | none => none
      | some rest => some (q :: rest)

/-- `BBSeries.re_apply(turnings, width)`. -/
def re_apply (s : List Rat) (width : Nat) (turnings : List TurningPoint) :
    Option (List TurningPoint) :=
  re_applyAux s width turnings

/-- `np.mean` of a window, exact rational arithmetic. -/
def mean (l : List Rat) : Rat := l.sum / (l.length : Rat)

/-- `BBSeries.draw_ma(window)`: `series.rolling(window).mean().dropna()` re-indexed
from the same start date by the `BBSeries` constructor, so the value at position
`j` is the mean of `s[j..j+window-1]` and the curve has `n - window + 1` points. -/
def draw_ma (s : List Rat) (window : Nat) : List Rat :=
  (List.range (s.length + 1 - window)).map fun j => mean ((s.drop j).take window)

/-- Descending stable insertion, for `sorted(ma, reverse=True)`. -/
def insertDesc (x : Nat) : List Nat → List Nat
  | [] => [x]
  | y :: ys => if x ≤ y then y :: insertDesc x ys else x :: y :: ys

/-- `sorted(ma, reverse=True)`. -/
def sortDescNat (l : List Nat) : List Nat :=
  l.foldl (fun acc x => insertDesc x acc) []

/-- The rule-check block run on each curve of the `dating` loop
(`bb/bryboschan.py` lines 224-231): alternation, duration, phase, and the
start/end check only when the curve is the original (the last one); all checks
mutate the shared list in place, which is sequential composition. -/
def processCurve (min_dur min_pha min_boudary : Int) (orig : List Rat)
    (isOrig : Bool) (turns : List TurningPoint) : Option (List TurningPoint) :=
  let t := phase_check min_pha (duration_check min_dur (alternation_check turns))
  if isOrig then start_end_check t orig min_boudary else some t

/-- The remaining iterations of the `for idx, curve in enumerate(curves)` loop:
each further curve re-applies the carried turning points and re-runs the checks.
The original curve is the last element. -/
def datingRest (width : Nat) (min_dur min_pha min_boudary : Int) (orig : List Rat) :
    List (List Rat) → List TurningPoint → Option (List TurningPoint)
  | [], turns => some turns
  | c :: rest, turns =>
    (re_apply c width turns).bind fun t1 =>
      (processCurve min_dur min_pha min_boudary orig rest.isEmpty t1).bind fun t2 =>
        datingRest width min_dur min_pha min_boudary orig rest t2

/-- `BBSeries.dating` (`bb/bryboschan.py` lines 163-239) on the default
`spencer=False`, `rm_outliers=False` path: build the moving-average curves in
descending window order, append the original, detect extrema on the first curve
and cascade with re-application, running the checks at every stage. -/
def dating (s : List Rat) (ma : List Nat) (width : Nat)
    (min_dur min_pha min_boudary : Int) : Option (List TurningPoint) :=
  let curves := (sortDescNat ma).map (draw_ma s) ++ [s]
  (processCurve min_dur min_pha min_boudary s curves.tail.isEmpty
      (get_turnings (curves.headD s) width)).bind fun t1 =>
    datingRest width min_dur min_pha min_boudary s curves.tail t1

/-- No two adjacent points of the sequence share a kind (the spec's alternation
invariant). -/
def Alternating (l : List TurningPoint) : Prop :=
  List.Chain' (fun a b => a.sta ≠ b.sta) l

/-- The input has no three consecutive points of the same kind. -/
def NoTriple : List TurningPoint → Prop
  | a :: b :: c :: rest => ¬(a.sta = b.sta ∧ b.sta = c.sta) ∧ NoTriple (b :: c :: rest)
  | _ => True

/-- Ascending by position. -/
def AscendingByDti (l : List TurningPoint) : Prop :=
  List.Pairwise (fun a b => a.dti ≤ b.dti) l

/-- Concrete 20-point series used to exercise `dating` with one MA-7 curve. -/
def c8_series : List Rat :=
  [0, 0, 3, 1, 1, 1, 0, 7, 7, 10, 8, 8, 8, -7, 0, 0, 17, 15, 15, 15]

theorem durationAux_stop (d : Int) (i : Nat) (l : List TurningPoint)
    (h : ¬ i + 2 < l.length) : (durationAux d i l).val = l := by
  rw [durationAux]
  simp only [dif_neg h]

theorem durationAux_adv (d : Int) (i : Nat) (l : List TurningPoint)
    (h : i + 2 < l.length)
    (hv : ¬ time_diff (l.getD i tp0) (l.getD (i + 2) tp0) < d) :
    (durationAux d i l).val = (durationAux d (i + 1) l).val := by
  rw [durationAux]
  simp only [dif_pos h, if_neg hv]

theorem durationAux_viol (d : Int) (i : Nat) (l : List TurningPoint)
    (h : i + 2 < l.length)
    (hv : time_diff (l.getD i tp0) (l.getD (i + 2) tp0) < d) :
    (durationAux d i l).val =
      (durationAux d i
        (durationAux d 0 (alternation_check (l.eraseIdx (dur_victim l i)))).val).val := by
  rw [durationAux]
  simp only [dif_pos h, if_pos hv]

theorem phaseAux_stop (p : Int) (i : Nat) (l : List TurningPoint)
    (h : ¬ i + 1 < l.length) : (phaseAux p i l).val = l := by
  rw [phaseAux]
  simp only [dif_neg h]

theorem phaseAux_adv (p : Int) (i : Nat) (l : List TurningPoint)
    (h : i + 1 < l.length)
    (hv : ¬ time_diff (l.getD i tp0) (l.getD (i + 1) tp0) < p) :
    (phaseAux p i l).val = (phaseAux p (i + 1) l).val := by
  rw [phaseAux]
  simp only [dif_pos h, if_neg hv]

theorem phaseAux_viol (p : Int) (i : Nat) (l : List TurningPoint)
    (h : i + 1 < l.length)
    (hv : time_diff (l.getD i tp0) (l.getD (i + 1) tp0) < p) :
    (phaseAux p i l).val =
      (phaseAux p i
        (phaseAux p 0 (alternation_check (l.eraseIdx (i + 1)))).val).val := by
  rw [phaseAux]
  simp only [dif_pos h, if_pos hv]

/-- The scan of `duration_check` finds no violation anywhere in `l`. -/
def DurStable (d : Int) (l : List TurningPoint) : Prop :=
  ∀ i, i + 2 < l.length → ¬ time_diff (l.getD i tp0) (l.getD (i + 2) tp0) < d

/-- The scan of `phase_check` finds no violation anywhere in `l`. -/
def PhaStable (p : Int) (l : List TurningPoint) : Prop :=
  ∀ i, i + 1 < l.length → ¬ time_diff (l.getD i tp0) (l.getD (i + 1) tp0) < p

theorem dur_victim_lt (l : List TurningPoint) (i : Nat) (h : i + 2 < l.length) :
    dur_victim l i < l.length := by
  unfold dur_victim
  split <;> split <;> omega

theorem erase_alt_length_lt (l : List TurningPoint) (k : Nat) (hk : k < l.length) :
    (alternation_check (l.eraseIdx k)).length < l.length := by
  have h1 : (l.eraseIdx k).length < l.length := by
    rw [List.length_eraseIdx]
    simp only [hk, if_pos]
    omega
  exact Nat.lt_of_le_of_lt (alternation_sublist (l.eraseIdx k)).length_le h1

theorem durationAux_of_stable (d : Int) (l : List TurningPoint) (hs : DurStable d l) :
    ∀ i, (durationAux d i l).val = l := by
  have key : ∀ k i, l.length ≤ i + k → (durationAux d i l).val = l := by
    intro k
    induction k with
    | zero =>
      intro i hi
      exact durationAux_stop d i l (by omega)
    | succ k ih =>
      intro i hi
      by_cases h : i + 2 < l.length
      · rw [durationAux_adv d i l h (hs i h)]
        exact ih (i + 1) (by omega)
      · exact durationAux_stop d i l h
  exact fun i => key l.length i (by omega)

theorem durationAux_stable (d : Int) (l : List TurningPoint) (i : Nat)
    (hpre : ∀ j, j < i → j + 2 < l.length →
      ¬ time_diff (l.getD j tp0) (l.getD (j + 2) tp0) < d) :
    DurStable d (durationAux d i l).val := by
  by_cases h : i + 2 < l.length
  · by_cases hv : time_diff (l.getD i tp0) (l.getD (i + 2) tp0) < d
    · rw [durationAux_viol d i l h hv]
      have hstab : DurStable d
          (durationAux d 0 (alternation_check (l.eraseIdx (dur_victim l i)))).val :=
        durationAux_stable d (alternation_check (l.eraseIdx (dur_victim l i))) 0
          (fun j hj _ => absurd hj (Nat.not_lt_zero j))
      rw [durationAux_of_stable d _ hstab i]
      exact hstab
    · rw [durationAux_adv d i l h hv]
      exact durationAux_stable d l (i + 1) (by
        intro j hj hj2
        rcases Nat.lt_or_ge j i with hji | hji
        · exact hpre j hji hj2
        · have : j = i := by omega
          subst this
          exact hv)
  · rw [durationAux_stop d i l h]
    intro j hj
    exact hpre j (by omega) hj
termination_by (l.length, l.length - i)
decreasing_by
  · exact Prod.Lex.left _ _ (erase_alt_length_lt l (dur_victim l i) (dur_victim_lt l i h))
  · exact Prod.Lex.right l.length (by omega)

theorem phaseAux_of_stable (p : Int) (l : List TurningPoint) (hs : PhaStable p l) :
    ∀ i, (phaseAux p i l).val = l := by
  have key : ∀ k i, l.length ≤ i + k → (phaseAux p i l).val = l := by
    intro k
    induction k with
    | zero =>
      intro i hi
      exact phaseAux_stop p i l (by omega)
    | succ k ih =>
      intro i hi
      by_cases h : i + 1 < l.length
      · rw [phaseAux_adv p i l h (hs i h)]
        exact ih (i + 1) (by omega)
      · exact phaseAux_stop p i l h
  exact fun i => key l.length i (by omega)

theorem phaseAux_stable (p : Int) (l : List TurningPoint) (i : Nat)
    (hpre : ∀ j, j < i → j + 1 < l.length →
      ¬ time_diff (l.getD j tp0) (l.getD (j + 1) tp0) < p) :
    PhaStable p (phaseAux p i l).val := by
  by_cases h : i + 1 < l.length
  · by_cases hv : time_diff (l.getD i tp0) (l.getD (i + 1) tp0) < p
    · rw [phaseAux_viol p i l h hv]
      have hstab : PhaStable p (phaseAux p 0 (alternation_check (l.eraseIdx (i + 1)))).val :=
        phaseAux_stable p (alternation_check (l.eraseIdx (i + 1))) 0
          (fun j hj _ => absurd hj (Nat.not_lt_zero j))
      rw [phaseAux_of_stable p _ hstab i]
      exact hstab
    · rw [phaseAux_adv p i l h hv]
      exact phaseAux_stable p l (i + 1) (by
        intro j hj hj2
        rcases Nat.lt_or_ge j i with hji | hji
        · exact hpre j hji hj2
        · have : j = i := by omega
          subst this
          exact hv)
  · rw [phaseAux_stop p i l h]
    intro j hj
    exact hpre j (by omega) hj
termination_by (l.length, l.length - i)
decreasing_by
  · exact Prod.Lex.left _ _ (erase_alt_length_lt l (i + 1) h)
  · exact Prod.Lex.right l.length (by omega)

theorem noTriple_of_cons : ∀ {a : TurningPoint} {l : List TurningPoint},
    NoTriple (a :: l) → NoTriple l
  | _, [], _ => trivial
  | _, [_], _ => trivial
  | _, _ :: _ :: _, h => h.2

theorem alternation_head_sta (rest : List TurningPoint) :
    ∀ a : TurningPoint, ∃ b t, alternation_check (a :: rest) = b :: t ∧ b.sta = a.sta := by
  induction rest with
  | nil =>
    intro a
    exact ⟨a, [], rfl, rfl⟩
  | cons c rest ih =>
    intro a
    rw [alternation_check]
    by_cases hs : a.sta = c.sta
    · simp only [if_pos hs]
      cases hk : a.sta with
      | P =>
        by_cases hv : a.val ≤ c.val
        · simp only [if_pos hv]
          obtain ⟨b, t, he, hb⟩ := ih c
          exact ⟨b, t, he, by rw [hb, ← hs, hk]⟩
        · simp only [if_neg hv]
          exact ⟨a, alternation_check rest, rfl, hk⟩
      | T =>
        by_cases hv : c.val ≤ a.val
        · simp only [if_pos hv]
          obtain ⟨b, t, he, hb⟩ := ih c
          exact ⟨b, t, he, by rw [hb, ← hs, hk]⟩
        · simp only [if_neg hv]
          exact ⟨a, alternation_check rest, rfl, hk⟩
    · simp only [if_neg hs]
      exact ⟨a, alternation_check (c :: rest), rfl, rfl⟩

theorem alternation_alternating_aux :
    ∀ n : Nat, ∀ l : List TurningPoint, l.length ≤ n → NoTriple l →
      Alternating (alternation_check l) := by
  intro n
  induction n with
  | zero =>
    intro l hl _
    cases l with
    | nil => exact List.chain'_nil
    | cons a t => exact absurd hl (by simp)
  | succ n IH =>
    intro l hl hNT
    match l, hl, hNT with
    | [], _, _ => exact List.chain'_nil
    | [a], _, _ => exact List.chain'_singleton a
    | a :: b :: rest, hl, hNT =>
      rw [alternation_check]
      have hlen : (b :: rest).length ≤ n := by simp at hl ⊢; omega
      by_cases hs : a.sta = b.sta
      · simp only [if_pos hs]
        have hdropA : Alternating (alternation_check (b :: rest)) :=
          IH (b :: rest) hlen (noTriple_of_cons hNT)
        have hkeepA : Alternating (a :: alternation_check rest) := by
          have hAlt : Alternating (alternation_check rest) :=
            IH rest (by simp at hlen ⊢; omega) (noTriple_of_cons (noTriple_of_cons hNT))
          rw [Alternating, List.chain'_cons']
          refine ⟨?_, hAlt⟩
          intro y hy
          cases rest with
          | nil => simp [alternation_check] at hy
          | cons c rest' =>
            obtain ⟨b', t, he, hb'⟩ := alternation_head_sta rest' c
            rw [he] at hy
            simp only [List.head?_cons, Option.mem_def, Option.some.injEq] at hy
            subst hy
            have hbc : b.sta ≠ c.sta := fun hh => hNT.1 ⟨hs, hh⟩
            rw [hb', hs]
            exact hbc
        cases hk : a.sta with
        | P =>
          by_cases hv : a.val ≤ b.val
          · simpa only [if_pos hv] using hdropA
          · simpa only [if_neg hv] using hkeepA
        | T =>
          by_cases hv : b.val ≤ a.val
          · simpa only [if_pos hv] using hdropA
          · simpa only [if_neg hv] using hkeepA
      · simp only [if_neg hs]
        have hAlt : Alternating (alternation_check (b :: rest)) :=
          IH (b :: rest) hlen (noTriple_of_cons hNT)
        rw [Alternating, List.chain'_cons']
        refine ⟨?_, hAlt⟩
        intro y hy
        obtain ⟨b', t, he, hb'⟩ := alternation_head_sta rest b
        rw [he] at hy
        simp only [List.head?_cons, Option.mem_def, Option.some.injEq] at hy
        subst hy
        rw [hb']
        exact hs

theorem start_end_sublist (l : List TurningPoint) (c : List Rat) (m : Int)
    (r : List TurningPoint) (h : start_end_check l c m = some r) : r.Sublist l := by
  unfold start_end_check at h
  cases l with
  | nil => simp at h
  | cons a t =>
    simp only [List.head?_cons] at h
    have hsub1 : (if a.dti < beginDate c + m then (a :: t).tail else a :: t).Sublist (a :: t) := by
      split
      · exact List.tail_sublist _
      · exact List.Sublist.refl _
    set l1 := if a.dti < beginDate c + m then (a :: t).tail else a :: t with hl1
    cases hg : l1.getLast? with
    | none =>
      rw [hg] at h
      simp at h
    | some last =>
      rw [hg] at h
      simp only [Option.some.injEq] at h
      subst h
      split
      · exact (List.dropLast_sublist l1).trans hsub1
      · exact hsub1

theorem insertTP_mem (z x : TurningPoint) (l : List TurningPoint) :
    z ∈ insertTP x l ↔ z = x ∨ z ∈ l := by
  induction l with
  | nil => simp [insertTP]
  | cons y ys ih =>
    rw [insertTP]
    split
    · simp only [List.mem_cons, ih]
      tauto
    · simp only [List.mem_cons]

theorem insertTP_sorted (x : TurningPoint) (l : List TurningPoint)
    (h : AscendingByDti l) : AscendingByDti (insertTP x l) := by
  induction l with
  | nil => simp [insertTP, AscendingByDti]
  | cons y ys ih =>
    rw [insertTP]
    have hys : AscendingByDti ys := (List.pairwise_cons.mp h).2
    have hall : ∀ z ∈ ys, y.dti ≤ z.dti := (List.pairwise_cons.mp h).1
    split
    · rename_i hle
      refine List.pairwise_cons.mpr ⟨?_, ih hys⟩
      intro z hz
      rcases (insertTP_mem z x ys).mp hz with hzx | hzys
      · rw [hzx]; exact hle
      · exact hall z hzys
    · rename_i hgt
      refine List.pairwise_cons.mpr ⟨?_, h⟩
      intro z hz
      rcases List.mem_cons.mp hz with hzy | hzys
      · rw [hzy]; omega
      · have := hall z hzys; omega

theorem sortByDti_sorted (l : List TurningPoint) : AscendingByDti (sortByDti l) := by
  have key : ∀ (l acc : List TurningPoint), AscendingByDti acc →
      AscendingByDti (l.foldl (fun acc x => insertTP x acc) acc) := by
    intro l
    induction l with
    | nil => intro acc h; exact h
    | cons x xs ih =>
      intro acc h
      exact ih (insertTP x acc) (insertTP_sorted x acc h)
  exact key l [] (List.Pairwise.nil)

theorem get_turnings_sorted (s : List Rat) (w : Nat) :
    AscendingByDti (get_turnings s w) := sortByDti_sorted _

theorem series_slice_mem (s : List Rat) (lo hi : Int) (q : Int × Rat) :
    q ∈ series_slice s lo hi ↔
      ∃ j : Nat, (j : Int) = q.1 ∧ j < s.length ∧ lo ≤ q.1 ∧ q.1 ≤ hi ∧ q.2 = s.getD j 0 := by
  unfold series_slice
  rw [List.mem_filterMap]
  constructor
  · rintro ⟨j, hj, hf⟩
    rw [List.mem_range] at hj
    by_cases hcond : lo ≤ (j : Int) ∧ (j : Int) ≤ hi
    · rw [if_pos hcond] at hf
      simp only [Option.some.injEq] at hf
      subst hf
      exact ⟨j, rfl, hj, hcond.1, hcond.2, rfl⟩
    · rw [if_neg hcond] at hf
      exact absurd hf (by simp)
  · rintro ⟨j, hj1, hj2, hlo, hhi, hval⟩
    refine ⟨j, List.mem_range.mpr hj2, ?_⟩
    have hcond : lo ≤ (j : Int) ∧ (j : Int) ≤ hi :=
      ⟨by rw [hj1]; exact hlo, by rw [hj1]; exact hhi⟩
    rw [if_pos hcond]
    have hq : ((j : Int), s.getD j 0) = q := Prod.ext hj1 hval.symm
    rw [hq]

theorem series_slice_mem_of (s : List Rat) (lo hi : Int) (j : Nat)
    (hj : j < s.length) (hlo : lo ≤ (j : Int)) (hhi : (j : Int) ≤ hi) :
    ((j : Int), s.getD j 0) ∈ series_slice s lo hi :=
  (series_slice_mem s lo hi _).mpr ⟨j, rfl, hj, hlo, hhi, rfl⟩

theorem idxmaxAux_mem (ys : List (Int × Rat)) :
    ∀ best, idxmaxAux best ys ∈ best :: ys := by
  induction ys with
  | nil => intro best; exact List.mem_singleton.mpr rfl
  | cons y ys ih =>
    intro best
    rw [idxmaxAux]
    by_cases h : best.2 < y.2
    · rw [if_pos h]
      rcases List.mem_cons.mp (ih y) with h1 | h1
      · rw [h1]; simp
      · simp [h1]
    · rw [if_neg h]
      rcases List.mem_cons.mp (ih best) with h1 | h1
      · rw [h1]; simp
      · simp [h1]

theorem idxmaxAux_ge (ys : List (Int × Rat)) :
    ∀ best y, y ∈ best :: ys → y.2 ≤ (idxmaxAux best ys).2 := by
  induction ys with
  | nil =>
    intro best y hy
    rw [List.mem_singleton.mp hy, idxmaxAux]
  | cons z zs ih =>
    intro best y hy
    rw [idxmaxAux]
    have hb : best.2 ≤ (if best.2 < z.2 then z else best).2 := by
      split <;> [exact le_of_lt (by assumption); exact le_refl _]
    have hz : z.2 ≤ (if best.2 < z.2 then z else best).2 := by
      split <;> [exact le_refl _; exact le_of_not_lt (by assumption)]
    rcases List.mem_cons.mp hy with h1 | h1
    · rw [h1]
      exact le_trans hb (ih _ _ (List.mem_cons_self _ _))
    · rcases List.mem_cons.mp h1 with h2 | h2
      · rw [h2]
        exact le_trans hz (ih _ _ (List.mem_cons_self _ _))
      · exact ih _ y (List.mem_cons_of_mem _ h2)

theorem idxminAux_mem (ys : List (Int × Rat)) :
    ∀ best, idxminAux best ys ∈ best :: ys := by
  induction ys with
  | nil => intro best; exact List.mem_singleton.mpr rfl
  | cons y ys ih =>
    intro best
    rw [idxminAux]
    by_cases h : y.2 < best.2
    · rw [if_pos h]
      rcases List.mem_cons.mp (ih y) with h1 | h1
      · rw [h1]; simp
      · simp [h1]
    · rw [if_neg h]
      rcases List.mem_cons.mp (ih best) with h1 | h1
      · rw [h1]; simp
      · simp [h1]

theorem idxminAux_le (ys : List (Int × Rat)) :
    ∀ best y, y ∈ best :: ys → (idxminAux best ys).2 ≤ y.2 := by
  induction ys with
  | nil =>
    intro best y hy
    rw [List.mem_singleton.mp hy, idxminAux]
  | cons z zs ih =>
    intro best y hy
    rw [idxminAux]
    have hb : (if z.2 < best.2 then z else best).2 ≤ best.2 := by
      split <;> [exact le_of_lt (by assumption); exact le_refl _]
    have hz : (if z.2 < best.2 then z else best).2 ≤ z.2 := by
      split <;> [exact le_refl _; exact le_of_not_lt (by assumption)]
    rcases List.mem_cons.mp hy with h1 | h1
    · rw [h1]
      exact le_trans (ih _ _ (List.mem_cons_self _ _)) hb
    · rcases List.mem_cons.mp h1 with h2 | h2
      · rw [h2]
        exact le_trans (ih _ _ (List.mem_cons_self _ _)) hz
      · exact ih _ y (List.mem_cons_of_mem _ h2)

theorem relocate_spec (s : List Rat) (w : Nat) (p q : TurningPoint)
    (h : relocate s w p = some q) :
    q.sta = p.sta ∧
    p.dti - (w : Int) ≤ q.dti ∧ q.dti ≤ p.dti + (w : Int) ∧
    (∃ jn : Nat, (jn : Int) = q.dti ∧ jn < s.length ∧ q.val = s.getD jn 0) ∧
    (∀ j : Nat, j < s.length → p.dti - (w : Int) ≤ (j : Int) → (j : Int) ≤ p.dti + (w : Int) →
      (p.sta = Kind.P → s.getD j 0 ≤ q.val) ∧ (p.sta = Kind.T → q.val ≤ s.getD j 0)) := by
  unfold relocate at h
  cases hst : p.sta with
  | P =>
    rw [hst] at h
    simp only [if_pos rfl] at h
    cases htemp : series_slice s (p.dti - (w : Int)) (p.dti + (w : Int)) with
    | nil =>
      rw [htemp] at h
      simp [series_idxmax] at h
    | cons x xs =>
      rw [htemp] at h
      set r := idxmaxAux x xs with hr
      simp only [series_idxmax, if_true, Option.map_some', Option.some.injEq] at h
      subst h
      have hmem : r ∈ x :: xs := idxmaxAux_mem xs x
      rw [← htemp] at hmem
      obtain ⟨jn, hjn, hjlen, hlo, hhi, hval⟩ := (series_slice_mem _ _ _ _).mp hmem
      refine ⟨rfl, hlo, hhi, ⟨jn, hjn, hjlen, hval⟩, ?_⟩
      intro j hj hjlo hjhi
      refine ⟨fun _ => ?_, fun hT => Kind.noConfusion hT⟩
      have hjm : ((j : Int), s.getD j 0) ∈ x :: xs := by
        rw [← htemp]
        exact series_slice_mem_of s _ _ j hj hjlo hjhi
      exact idxmaxAux_ge xs x _ hjm
  | T =>
    rw [hst] at h
    simp only [reduceCtorEq, if_neg] at h
    cases htemp : series_slice s (p.dti - (w : Int)) (p.dti + (w : Int)) with
    | nil =>
      rw [htemp] at h
      simp [series_idxmin] at h
    | cons x xs =>
      rw [htemp] at h
      set r := idxminAux x xs with hr
      simp only [series_idxmin, if_false, Option.map_some', Option.some.injEq] at h
      subst h
      have hmem : r ∈ x :: xs := idxminAux_mem xs x
      rw [← htemp] at hmem
      obtain ⟨jn, hjn, hjlen, hlo, hhi, hval⟩ := (series_slice_mem _ _ _ _).mp hmem
      refine ⟨rfl, hlo, hhi, ⟨jn, hjn, hjlen, hval⟩, ?_⟩
      intro j hj hjlo hjhi
      refine ⟨fun hP => Kind.noConfusion hP, fun _ => ?_⟩
      have hjm : ((j : Int), s.getD j 0) ∈ x :: xs := by
        rw [← htemp]
        exact series_slice_mem_of s _ _ j hj hjlo hjhi
      exact idxminAux_le xs x _ hjm

theorem re_applyAux_pointwise (s : List Rat) (w : Nat) :
    ∀ ts rs : List TurningPoint, re_applyAux s w ts = some rs →
      rs.length = ts.length ∧
      ∀ i, i < ts.length → relocate s w (ts.getD i tp0) = some (rs.getD i tp0) := by
  intro ts
  induction ts with
  | nil =>
    intro rs h
    simp only [re_applyAux, Option.some.injEq] at h
    subst h
    exact ⟨rfl, fun i hi => absurd hi (by simp)⟩
  | cons p ps ih =>
    intro rs h
    rw [re_applyAux] at h
    cases hrel : relocate s w p with
    | none => rw [hrel] at h; simp at h
    | some q =>
      rw [hrel] at h
      cases hrest : re_applyAux s w ps with
      | none => rw [hrest] at h; simp at h
      | some rest =>
        rw [hrest] at h
        simp only [Option.some.injEq] at h
        subst h
        obtain ⟨hlen, hpt⟩ := ih rest hrest
        refine ⟨by simp [hlen], ?_⟩
        intro i hi
        cases i with
        | zero => simpa using hrel
        | succ i =>
          simp only [List.getD_cons_succ]
          exact hpt i (by simpa using hi)

/-- C1 (corrected): as stated the claim is false — `alternation_check` is a
single scan that advances `i` after popping the later point of a same-kind
pair, so with three consecutive same-kind points an adjacent same-kind pair can
survive, and the scan is not repeated.  Amended: if the input contains no three
consecutive same-kind points, then no two adjacent entries of the returned
sequence share a kind. -/
theorem C1_alternation_invariant (l : List TurningPoint) (h : NoTriple l) :
    Alternating (alternation_check l) :=
  alternation_alternating_aux l.length l (le_refl _) h

/-- C1 counterexample: three peaks with values 5, 3, 4 — the scan pops the
middle one, advances, and returns two adjacent peaks. -/
theorem C1_counterexample :
    alternation_check [⟨0, Kind.P, 5⟩, ⟨1, Kind.P, 3⟩, ⟨2, Kind.P, 4⟩] =
      [⟨0, Kind.P, 5⟩, ⟨2, Kind.P, 4⟩] ∧
    ¬ Alternating (alternation_check [⟨0, Kind.P, 5⟩, ⟨1, Kind.P, 3⟩, ⟨2, Kind.P, 4⟩]) := by
  constructor
  · decide
  · intro hA
    rw [show alternation_check [⟨0, Kind.P, 5⟩, ⟨1, Kind.P, 3⟩, ⟨2, Kind.P, 4⟩] =
          [⟨0, Kind.P, 5⟩, ⟨2, Kind.P, 4⟩] from by decide] at hA
    exact (List.chain'_cons.mp hA).1 rfl

theorem C1_witness :
    NoTriple [⟨0, Kind.P, 1⟩, ⟨2, Kind.T, 0⟩] ∧
    Alternating (alternation_check [⟨0, Kind.P, 1⟩, ⟨2, Kind.T, 0⟩]) :=
  ⟨True.intro, C1_alternation_invariant [⟨0, Kind.P, 1⟩, ⟨2, Kind.T, 0⟩] True.intro⟩

/-- C2 (corrected): as stated the claim is false — when `turn[i]` is a Trough
and the pair `(i, i+2)` violates `min_dur`, the code compares `turn[i]` with
`turn[i+1]` and pops the one with the GREATER value (`turnings[i] >=
turnings[i+1]` pops `i`), keeping the smaller.  Amended: the check compares
`turn[i]` with `turn[i+1]` and keeps whichever has the smaller value,
discarding the weakly greater one (on a tie the earlier point `turn[i]` is
discarded). -/
theorem C2_trough_branch (d : Int) (l : List TurningPoint) (i : Nat)
    (h : i + 2 < l.length) (hT : (l.getD i tp0).sta = Kind.T)
    (hv : time_diff (l.getD i tp0) (l.getD (i + 2) tp0) < d) :
    ((l.getD (i + 1) tp0).val ≤ (l.getD i tp0).val →
      (durationAux d i l).val =
        (durationAux d i (durationAux d 0 (alternation_check (l.eraseIdx i))).val).val) ∧
    ((l.getD i tp0).val < (l.getD (i + 1) tp0).val →
      (durationAux d i l).val =
        (durationAux d i (durationAux d 0 (alternation_check (l.eraseIdx (i + 1)))).val).val) := by
  have hnotP : ¬ (l.getD i tp0).sta = Kind.P := by
    rw [hT]
    exact fun hh => Kind.noConfusion hh
  constructor
  · intro hle
    have hvic : dur_victim l i = i := by
      unfold dur_victim
      rw [if_neg hnotP, if_pos hle]
    have hstep := durationAux_viol d i l h hv
    rw [hvic] at hstep
    exact hstep
  · intro hlt
    have hvic : dur_victim l i = i + 1 := by
      unfold dur_victim
      rw [if_neg hnotP, if_neg (not_le.mpr hlt)]
    have hstep := durationAux_viol d i l h hv
    rw [hvic] at hstep
    exact hstep

/-- C2 counterexample: trough `(0, T, 0)`, intervening peak `(1, P, 5)`, trough
`(2, T, 1)` with `min_dur = 6`: the claim says the greater-valued `(1, P, 5)`
is kept, but the code discards it and the final survivor is `(0, T, 0)`. -/
theorem C2_counterexample :
    duration_check 6 [⟨0, Kind.T, 0⟩, ⟨1, Kind.P, 5⟩, ⟨2, Kind.T, 1⟩] = [⟨0, Kind.T, 0⟩] ∧
    ¬ (⟨1, Kind.P, 5⟩ : TurningPoint) ∈
        duration_check 6 [⟨0, Kind.T, 0⟩, ⟨1, Kind.P, 5⟩, ⟨2, Kind.T, 1⟩] := by
  have e1 : duration_check 6 [⟨0, Kind.T, 0⟩, ⟨1, Kind.P, 5⟩, ⟨2, Kind.T, 1⟩] =
      [⟨0, Kind.T, 0⟩] := by
    unfold duration_check
    rw [durationAux_viol 6 0 _ (by decide) (by decide)]
    rw [show (([⟨0, Kind.T, 0⟩, ⟨1, Kind.P, 5⟩, ⟨2, Kind.T, 1⟩] : List TurningPoint).eraseIdx
          (dur_victim [⟨0, Kind.T, 0⟩, ⟨1, Kind.P, 5⟩, ⟨2, Kind.T, 1⟩] 0)) =
        [⟨0, Kind.T, 0⟩, ⟨2, Kind.T, 1⟩] from by decide]
    rw [show alternation_check [⟨0, Kind.T, 0⟩, ⟨2, Kind.T, 1⟩] = [⟨0, Kind.T, 0⟩] from by decide]
    rw [durationAux_stop 6 0 [⟨0, Kind.T, 0⟩] (by decide)]
    rw [durationAux_stop 6 0 [⟨0, Kind.T, 0⟩] (by decide)]
  refine ⟨e1, ?_⟩
  rw [e1]
  decide

theorem C2_witness :
    (durationAux 6 0 [⟨0, Kind.T, 0⟩, ⟨1, Kind.P, 5⟩, ⟨2, Kind.T, 1⟩]).val =
      (durationAux 6 0
        (durationAux 6 0 (alternation_check
          (([⟨0, Kind.T, 0⟩, ⟨1, Kind.P, 5⟩, ⟨2, Kind.T, 1⟩] : List TurningPoint).eraseIdx
            (0 + 1)))).val).val :=
  (C2_trough_branch 6 [⟨0, Kind.T, 0⟩, ⟨1, Kind.P, 5⟩, ⟨2, Kind.T, 1⟩] 0
    (by decide) (by decide) (by decide)).2 (by decide)

/-- C3 (corrected): as stated the claim is false — `alternation_check` and
`start_end_check` are not idempotent.  Amended: re-running `duration_check` or
`phase_check` on its own output returns it unchanged, while `alternation_check`
(see the counterexample) and `start_end_check` (witnessed here concretely:
a second application removes a further point from each end) are not idempotent. -/
theorem C3_idempotence :
    (∀ (d : Int) (l : List TurningPoint),
      duration_check d (duration_check d l) = duration_check d l) ∧
    (∀ (p : Int) (l : List TurningPoint),
      phase_check p (phase_check p l) = phase_check p l) ∧
    (start_end_check [⟨0, Kind.T, 0⟩, ⟨1, Kind.T, 0⟩, ⟨5, Kind.P, 1⟩]
        [0, 0, 0, 0, 0, 0, 0, 0, 0, 0] 3 = some [⟨1, Kind.T, 0⟩, ⟨5, Kind.P, 1⟩] ∧
      start_end_check [⟨1, Kind.T, 0⟩, ⟨5, Kind.P, 1⟩]
        [0, 0, 0, 0, 0, 0, 0, 0, 0, 0] 3 = some [⟨5, Kind.P, 1⟩]) := by
  refine ⟨?_, ?_, by decide, by decide⟩
  · intro d l
    exact durationAux_of_stable d _
      (durationAux_stable d l 0 (fun j hj _ => absurd hj (Nat.not_lt_zero j))) 0
  · intro p l
    exact phaseAux_of_stable p _
      (phaseAux_stable p l 0 (fun j hj _ => absurd hj (Nat.not_lt_zero j))) 0

/-- C3 counterexample: re-running `alternation_check` on its own output changes
it — `[P 7, P 2, P 5]` yields `[P 7, P 5]`, and a second run yields `[P 7]`. -/
theorem C3_counterexample :
    alternation_check (alternation_check [⟨0, Kind.P, 7⟩, ⟨1, Kind.P, 2⟩, ⟨2, Kind.P, 5⟩]) ≠
      alternation_check [⟨0, Kind.P, 7⟩, ⟨1, Kind.P, 2⟩, ⟨2, Kind.P, 5⟩] := by
  decide

/-- C4 (corrected): as stated the claim is false — no `InsufficientDataError`
exists anywhere in the code; when `length ≤ 2*width` the scan range
`index[width:-width]` is empty and `get_turnings` silently returns the empty
candidate list.  Amended: for every series with `length ≤ 2*width`, extrema
detection returns the empty list (and raises nothing). -/
theorem C4_short_series_empty (s : List Rat) (w : Nat) (h : s.length ≤ 2 * w) :
    get_turnings s w = [] := by
  have hs : scanIdxs s.length w = [] := by
    unfold scanIdxs
    split
    · rfl
    · rw [Nat.sub_eq_zero_of_le h]
      exact List.take_zero _
  unfold get_turnings maxima minima
  rw [hs]
  rfl

/-- C4 counterexample: a 2-point series with `width = 1` — the code returns the
empty candidate list normally; no error of any kind is signalled. -/
theorem C4_counterexample : get_turnings [1, 2] 1 = [] := by decide

theorem C4_witness : get_turnings [5, 5, 5, 5] 2 = [] :=
  C4_short_series_empty [5, 5, 5, 5] 2 (by decide)

/-- C5 (corrected): as stated the claim is false — `alternation_check`,
`duration_check` and `phase_check` are no-ops below their minimum lengths
(2, 3, 2 points respectively), but `start_end_check` indexes `turnings[0]` on
the empty sequence and raises IndexError (modelled as `none`) instead of
returning the input unchanged.  Amended: the three scans are no-ops on short
input; the boundary check fails on empty input. -/
theorem C5_short_input_noop :
    (∀ l : List TurningPoint, l.length < 2 → alternation_check l = l) ∧
    (∀ (d : Int) (l : List TurningPoint), l.length < 3 → duration_check d l = l) ∧
    (∀ (p : Int) (l : List TurningPoint), l.length < 2 → phase_check p l = l) ∧
    (∀ (c : List Rat) (m : Int), start_end_check [] c m = none) := by
  refine ⟨?_, ?_, ?_, ?_⟩
  · intro l hl
    match l, hl with
    | [], _ => rfl
    | [a], _ => rfl
  · intro d l hl
    exact durationAux_stop d 0 l (by omega)
  · intro p l hl
    exact phaseAux_stop p 0 l (by omega)
  · intro c m
    rfl

/-- C5 counterexample: `start_end_check` on the empty sequence raises
(modelled `none`); it does not return the empty sequence unchanged. -/
theorem C5_counterexample :
    start_end_check [] [0, 0, 0, 0] 1 = none ∧
    start_end_check [] [0, 0, 0, 0] 1 ≠ some [] := by
  decide

theorem C5_witness :
    alternation_check [tp0] = [tp0] ∧ duration_check 6 [tp0] = [tp0] ∧
    phase_check 3 [tp0] = [tp0] ∧ start_end_check [] [0] 3 = none :=
  ⟨C5_short_input_noop.1 [tp0] (by decide),
   C5_short_input_noop.2.1 6 [tp0] (by decide),
   C5_short_input_noop.2.2.1 3 [tp0] (by decide),
   C5_short_input_noop.2.2.2 [0] 3⟩

/-- C6 (confirmed): each of the four checks terminates on every finite sequence.
In this embedding all four are total functions whose recursion is well-founded
on the strictly shrinking sequence length (every mutating step is a pop); this
theorem records the resulting bound: no check ever returns a longer sequence. -/
theorem C6_checks_length_bounded (d p m : Int) (c : List Rat) (l : List TurningPoint) :
    (alternation_check l).length ≤ l.length ∧
    (duration_check d l).length ≤ l.length ∧
    (phase_check p l).length ≤ l.length ∧
    (∀ r, start_end_check l c m = some r → r.length ≤ l.length) :=
  ⟨(alternation_sublist l).length_le,
   (durationAux d 0 l).property.length_le,
   (phaseAux p 0 l).property.length_le,
   fun r h => (start_end_sublist l c m r h).length_le⟩

theorem C6_witness :
    (alternation_check [tp0]).length ≤ ([tp0] : List TurningPoint).length ∧
    (duration_check 6 [tp0]).length ≤ ([tp0] : List TurningPoint).length ∧
    (phase_check 3 [tp0]).length ≤ ([tp0] : List TurningPoint).length ∧
    ([tp0] : List TurningPoint).length ≤ ([tp0] : List TurningPoint).length :=
  ⟨(C6_checks_length_bounded 6 3 0 [0, 0, 0, 0] [tp0]).1,
   (C6_checks_length_bounded 6 3 0 [0, 0, 0, 0] [tp0]).2.1,
   (C6_checks_length_bounded 6 3 0 [0, 0, 0, 0] [tp0]).2.2.1,
   (C6_checks_length_bounded 6 3 0 [0, 0, 0, 0] [tp0]).2.2.2 [tp0] (by decide)⟩

/-- C10 (confirmed): every check only removes elements — its output is a
subsequence of its input (same points with unchanged position/kind/value, in
their original relative order; nothing is inserted or modified).  For
`start_end_check` this is stated on the non-raising executions. -/
theorem C10_checks_sublist (d p m : Int) (c : List Rat) (l : List TurningPoint) :
    (alternation_check l).Sublist l ∧
    (duration_check d l).Sublist l ∧
    (phase_check p l).Sublist l ∧
    (∀ r, start_end_check l c m = some r → r.Sublist l) :=
  ⟨alternation_sublist l,
   (durationAux d 0 l).property,
   (phaseAux p 0 l).property,
   fun r h => start_end_sublist l c m r h⟩

theorem C10_witness :
    (alternation_check [tp0, tp0]).Sublist [tp0, tp0] ∧
    (duration_check 6 [tp0, tp0]).Sublist [tp0, tp0] ∧
    (phase_check 3 [tp0, tp0]).Sublist [tp0, tp0] ∧
    ([tp0] : List TurningPoint).Sublist [tp0, tp0] :=
  ⟨(C10_checks_sublist 6 3 2 [0, 0, 0, 0] [tp0, tp0]).1,
   (C10_checks_sublist 6 3 2 [0, 0, 0, 0] [tp0, tp0]).2.1,
   (C10_checks_sublist 6 3 2 [0, 0, 0, 0] [tp0, tp0]).2.2.1,
   (C10_checks_sublist 6 3 2 [0, 0, 0, 0] [tp0, tp0]).2.2.2 [tp0] (by decide)⟩

/-- C7 (confirmed): `re_apply` relocates every carried point within the window
`[previous_position - width, previous_position + width]` (clipped to the curve,
as the pandas label slice is), to a position achieving the window maximum (Peak)
or minimum (Trough) of the new curve, takes its value from the new curve there,
preserves the kind, and moves the position by at most `width`. -/
theorem C7_re_apply_spec (s : List Rat) (w : Nat) (ts rs : List TurningPoint)
    (h : re_apply s w ts = some rs) :
    rs.length = ts.length ∧
    ∀ i, i < ts.length →
      (rs.getD i tp0).sta = (ts.getD i tp0).sta ∧
      (ts.getD i tp0).dti - (w : Int) ≤ (rs.getD i tp0).dti ∧
      (rs.getD i tp0).dti ≤ (ts.getD i tp0).dti + (w : Int) ∧
      ((rs.getD i tp0).dti - (ts.getD i tp0).dti).natAbs ≤ w ∧
      (∃ jn : Nat, (jn : Int) = (rs.getD i tp0).dti ∧ jn < s.length ∧
        (rs.getD i tp0).val = s.getD jn 0) ∧
      (∀ j : Nat, j < s.length →
        (ts.getD i tp0).dti - (w : Int) ≤ (j : Int) →
        (j : Int) ≤ (ts.getD i tp0).dti + (w : Int) →
        ((ts.getD i tp0).sta = Kind.P → s.getD j 0 ≤ (rs.getD i tp0).val) ∧
        ((ts.getD i tp0).sta = Kind.T → (rs.getD i tp0).val ≤ s.getD j 0)) := by
  obtain ⟨hlen, hpt⟩ := re_applyAux_pointwise s w ts rs h
  refine ⟨hlen, ?_⟩
  intro i hi
  obtain ⟨hsta, hlo, hhi, hex, hmax⟩ := relocate_spec s w _ _ (hpt i hi)
  exact ⟨hsta, hlo, hhi, by omega, hex, hmax⟩

theorem C7_witness :
    ([⟨1, Kind.P, 5⟩] : List TurningPoint).length =
      ([⟨1, Kind.P, 99⟩] : List TurningPoint).length ∧
    (([⟨1, Kind.P, 5⟩] : List TurningPoint).getD 0 tp0).sta =
      (([⟨1, Kind.P, 99⟩] : List TurningPoint).getD 0 tp0).sta :=
  have h : re_apply [0, 5, 1] 1 [⟨1, Kind.P, 99⟩] = some [⟨1, Kind.P, 5⟩] := by decide
  ⟨(C7_re_apply_spec [0, 5, 1] 1 [⟨1, Kind.P, 99⟩] [⟨1, Kind.P, 5⟩] h).1,
   ((C7_re_apply_spec [0, 5, 1] 1 [⟨1, Kind.P, 99⟩] [⟨1, Kind.P, 5⟩] h).2 0 (by decide)).1⟩

/-- C9 (confirmed): with `min_dur = 6` on the alternating trough/peak sequence
at consecutive positions 3..10 (the values of the repository's unit test
`test_duration_check`), `duration_check` returns exactly the two survivors at
positions 3 and 10. -/
theorem C9_duration_scenario :
    duration_check 6
      [⟨3, Kind.T, -11000⟩, ⟨4, Kind.P, 2000⟩, ⟨5, Kind.T, -3000⟩, ⟨6, Kind.P, 3000⟩,
       ⟨7, Kind.T, 2000⟩, ⟨8, Kind.P, 3000⟩, ⟨9, Kind.T, 2000⟩, ⟨10, Kind.P, 3000⟩] =
      [⟨3, Kind.T, -11000⟩, ⟨10, Kind.P, 3000⟩] := by
  have h23 : (durationAux 6 0 [⟨3, Kind.T, -11000⟩, ⟨10, Kind.P, 3000⟩]).val =
      [⟨3, Kind.T, -11000⟩, ⟨10, Kind.P, 3000⟩] :=
    durationAux_stop 6 0 _ (by decide)
  have h23b : (durationAux 6 1 [⟨3, Kind.T, -11000⟩, ⟨10, Kind.P, 3000⟩]).val =
      [⟨3, Kind.T, -11000⟩, ⟨10, Kind.P, 3000⟩] :=
    durationAux_stop 6 1 _ (by decide)
  have hL3v : (durationAux 6 1
      [⟨3, Kind.T, -11000⟩, ⟨8, Kind.P, 3000⟩, ⟨9, Kind.T, 2000⟩, ⟨10, Kind.P, 3000⟩]).val =
      [⟨3, Kind.T, -11000⟩, ⟨10, Kind.P, 3000⟩] := by
    rw [durationAux_viol 6 1 _ (by decide) (by decide)]
    rw [show (([⟨3, Kind.T, -11000⟩, ⟨8, Kind.P, 3000⟩, ⟨9, Kind.T, 2000⟩, ⟨10, Kind.P, 3000⟩] :
          List TurningPoint).eraseIdx
          (dur_victim [⟨3, Kind.T, -11000⟩, ⟨8, Kind.P, 3000⟩, ⟨9, Kind.T, 2000⟩,
            ⟨10, Kind.P, 3000⟩] 1)) =
        [⟨3, Kind.T, -11000⟩, ⟨9, Kind.T, 2000⟩, ⟨10, Kind.P, 3000⟩] from by decide]
    rw [show alternation_check [⟨3, Kind.T, -11000⟩, ⟨9, Kind.T, 2000⟩, ⟨10, Kind.P, 3000⟩] =
        [⟨3, Kind.T, -11000⟩, ⟨10, Kind.P, 3000⟩] from by decide]
    rw [h23, h23b]
  have hL3 : (durationAux 6 0
      [⟨3, Kind.T, -11000⟩, ⟨8, Kind.P, 3000⟩, ⟨9, Kind.T, 2000⟩, ⟨10, Kind.P, 3000⟩]).val =
      [⟨3, Kind.T, -11000⟩, ⟨10, Kind.P, 3000⟩] := by
    rw [durationAux_adv 6 0 _ (by decide) (by decide), hL3v]
  have hL2 : (durationAux 6 0
      [⟨3, Kind.T, -11000⟩, ⟨6, Kind.P, 3000⟩, ⟨7, Kind.T, 2000⟩, ⟨8, Kind.P, 3000⟩,
       ⟨9, Kind.T, 2000⟩, ⟨10, Kind.P, 3000⟩]).val =
      [⟨3, Kind.T, -11000⟩, ⟨10, Kind.P, 3000⟩] := by
    rw [durationAux_viol 6 0 _ (by decide) (by decide)]
    rw [show (([⟨3, Kind.T, -11000⟩, ⟨6, Kind.P, 3000⟩, ⟨7, Kind.T, 2000⟩, ⟨8, Kind.P, 3000⟩,
          ⟨9, Kind.T, 2000⟩, ⟨10, Kind.P, 3000⟩] : List TurningPoint).eraseIdx
          (dur_victim [⟨3, Kind.T, -11000⟩, ⟨6, Kind.P, 3000⟩, ⟨7, Kind.T, 2000⟩,
            ⟨8, Kind.P, 3000⟩, ⟨9, Kind.T, 2000⟩, ⟨10, Kind.P, 3000⟩] 0)) =
        [⟨3, Kind.T, -11000⟩, ⟨7, Kind.T, 2000⟩, ⟨8, Kind.P, 3000⟩, ⟨9, Kind.T, 2000⟩,
         ⟨10, Kind.P, 3000⟩] from by decide]
    rw [show alternation_check [⟨3, Kind.T, -11000⟩, ⟨7, Kind.T, 2000⟩, ⟨8, Kind.P, 3000⟩,
          ⟨9, Kind.T, 2000⟩, ⟨10, Kind.P, 3000⟩] =
        [⟨3, Kind.T, -11000⟩, ⟨8, Kind.P, 3000⟩, ⟨9, Kind.T, 2000⟩, ⟨10, Kind.P, 3000⟩]
        from by decide]
    rw [hL3, h23]
  unfold duration_check
  rw [durationAux_viol 6 0 _ (by decide) (by decide)]
  rw [show (([⟨3, Kind.T, -11000⟩, ⟨4, Kind.P, 2000⟩, ⟨5, Kind.T, -3000⟩, ⟨6, Kind.P, 3000⟩,
        ⟨7, Kind.T, 2000⟩, ⟨8, Kind.P, 3000⟩, ⟨9, Kind.T, 2000⟩, ⟨10, Kind.P, 3000⟩] :
        List TurningPoint).eraseIdx
        (dur_victim [⟨3, Kind.T, -11000⟩, ⟨4, Kind.P, 2000⟩, ⟨5, Kind.T, -3000⟩,
          ⟨6, Kind.P, 3000⟩, ⟨7, Kind.T, 2000⟩, ⟨8, Kind.P, 3000⟩, ⟨9, Kind.T, 2000⟩,
          ⟨10, Kind.P, 3000⟩] 0)) =
      [⟨3, Kind.T, -11000⟩, ⟨5, Kind.T, -3000⟩, ⟨6, Kind.P, 3000⟩, ⟨7, Kind.T, 2000⟩,
       ⟨8, Kind.P, 3000⟩, ⟨9, Kind.T, 2000⟩, ⟨10, Kind.P, 3000⟩] from by decide]
  rw [show alternation_check [⟨3, Kind.T, -11000⟩, ⟨5, Kind.T, -3000⟩, ⟨6, Kind.P, 3000⟩,
        ⟨7, Kind.T, 2000⟩, ⟨8, Kind.P, 3000⟩, ⟨9, Kind.T, 2000⟩, ⟨10, Kind.P, 3000⟩] =
      [⟨3, Kind.T, -11000⟩, ⟨6, Kind.P, 3000⟩, ⟨7, Kind.T, 2000⟩, ⟨8, Kind.P, 3000⟩,
       ⟨9, Kind.T, 2000⟩, ⟨10, Kind.P, 3000⟩] from by decide]
  rw [hL2, h23]

/-- C8 (corrected): as stated the claim is false — re-localization can move a
Peak forward and the following Trough backward by up to `width` without any
check removing either, and `dating` never re-sorts after `re_apply`, so the
final list need not be ascending by position (see the counterexample).
Amended: when no moving-average curves are configured (a single-stage cascade,
`ma = []`), every successful `dating` result is ascending by position. -/
theorem C8_dating_sorted_single_curve (s : List Rat) (w : Nat) (d p b : Int)
    (r : List TurningPoint) (h : dating s [] w d p b = some r) :
    AscendingByDti r := by
  have h' : (processCurve d p b s true (get_turnings s w)).bind
      (datingRest w d p b s []) = some r := h
  cases hpc : processCurve d p b s true (get_turnings s w) with
  | none =>
    rw [hpc] at h'
    simp at h'
  | some t1 =>
    rw [hpc] at h'
    simp only [Option.some_bind] at h'
    rw [datingRest] at h'
    simp only [Option.some.injEq] at h'
    subst h'
    unfold processCurve at hpc
    rw [if_pos rfl] at hpc
    have hsub := start_end_sublist _ s b t1 hpc
    have h0 : AscendingByDti (get_turnings s w) := get_turnings_sorted s w
    have h1 : AscendingByDti (alternation_check (get_turnings s w)) :=
      List.Pairwise.sublist (alternation_sublist _) h0
    have h2 : AscendingByDti (duration_check d (alternation_check (get_turnings s w))) :=
      List.Pairwise.sublist (durationAux d 0 _).property h1
    have h3 : AscendingByDti
        (phase_check p (duration_check d (alternation_check (get_turnings s w)))) :=
      List.Pairwise.sublist (phaseAux p 0 _).property h2
    exact List.Pairwise.sublist hsub h3

theorem processCurve_not_orig (d p b : Int) (orig : List Rat) (turns : List TurningPoint) :
    processCurve d p b orig false turns =
      some (phase_check p (duration_check d (alternation_check turns))) := rfl

theorem processCurve_orig (d p b : Int) (orig : List Rat) (turns : List TurningPoint) :
    processCurve d p b orig true turns =
      start_end_check (phase_check p (duration_check d (alternation_check turns))) orig b := rfl

theorem datingRest_nil (w : Nat) (d p b : Int) (orig : List Rat) (t : List TurningPoint) :
    datingRest w d p b orig [] t = some t := rfl

theorem datingRest_cons (w : Nat) (d p b : Int) (orig c : List Rat) (rest : List (List Rat))
    (t : List TurningPoint) :
    datingRest w d p b orig (c :: rest) t =
      (re_apply c w t).bind fun t1 =>
        (processCurve d p b orig rest.isEmpty t1).bind fun t2 =>
          datingRest w d p b orig rest t2 := rfl

/-- C8 counterexample: on `c8_series` with `ma = [7]`, `width = 3` and default
thresholds, the MA-7 stage keeps a Peak at 6 and a Trough at 9; re-application
to the original series moves the Peak to 9 and the Trough to 6, every check
passes, and `dating` returns the list `[(9, P), (6, T)]`, which is not
ascending by position. -/
theorem C8_counterexample :
    dating c8_series [7] 3 6 3 3 = some [⟨9, Kind.P, 10⟩, ⟨6, Kind.T, 0⟩] ∧
    ¬ AscendingByDti [⟨9, Kind.P, 10⟩, ⟨6, Kind.T, 0⟩] := by
  constructor
  · have hG : get_turnings (draw_ma c8_series 7) 3 =
        [⟨6, Kind.P, 48 / 7⟩, ⟨9, Kind.T, 27 / 7⟩] := by
      with_unfolding_all decide
    have hA1 : alternation_check [⟨6, Kind.P, 48 / 7⟩, ⟨9, Kind.T, 27 / 7⟩] =
        [⟨6, Kind.P, 48 / 7⟩, ⟨9, Kind.T, 27 / 7⟩] := by
      with_unfolding_all decide
    have hD1 : duration_check 6 [⟨6, Kind.P, 48 / 7⟩, ⟨9, Kind.T, 27 / 7⟩] =
        [⟨6, Kind.P, 48 / 7⟩, ⟨9, Kind.T, 27 / 7⟩] :=
      durationAux_stop 6 0 _ (by decide)
    have hP1 : phase_check 3 [⟨6, Kind.P, 48 / 7⟩, ⟨9, Kind.T, 27 / 7⟩] =
        [⟨6, Kind.P, 48 / 7⟩, ⟨9, Kind.T, 27 / 7⟩] := by
      unfold phase_check
      rw [phaseAux_adv 3 0 _ (by decide) (by decide)]
      exact phaseAux_stop 3 1 _ (by decide)
    have hR : re_apply c8_series 3 [⟨6, Kind.P, 48 / 7⟩, ⟨9, Kind.T, 27 / 7⟩] =
        some [⟨9, Kind.P, 10⟩, ⟨6, Kind.T, 0⟩] := by
      with_unfolding_all decide
    have hA2 : alternation_check [⟨9, Kind.P, 10⟩, ⟨6, Kind.T, 0⟩] =
        [⟨9, Kind.P, 10⟩, ⟨6, Kind.T, 0⟩] := by decide
    have hD2 : duration_check 6 [⟨9, Kind.P, 10⟩, ⟨6, Kind.T, 0⟩] =
        [⟨9, Kind.P, 10⟩, ⟨6, Kind.T, 0⟩] :=
      durationAux_stop 6 0 _ (by decide)
    have hP2 : phase_check 3 [⟨9, Kind.P, 10⟩, ⟨6, Kind.T, 0⟩] =
        [⟨9, Kind.P, 10⟩, ⟨6, Kind.T, 0⟩] := by
      unfold phase_check
      rw [phaseAux_adv 3 0 _ (by decide) (by decide)]
      exact phaseAux_stop 3 1 _ (by decide)
    have hSE : start_end_check [⟨9, Kind.P, 10⟩, ⟨6, Kind.T, 0⟩] c8_series 3 =
        some [⟨9, Kind.P, 10⟩, ⟨6, Kind.T, 0⟩] := by decide
    show (processCurve 6 3 3 c8_series false
        (get_turnings (draw_ma c8_series 7) 3)).bind
        (datingRest 3 6 3 3 c8_series [c8_series]) =
      some [⟨9, Kind.P, 10⟩, ⟨6, Kind.T, 0⟩]
    rw [hG, processCurve_not_orig, hA1, hD1, hP1]
    simp only [Option.some_bind]
    rw [datingRest_cons, hR]
    simp only [Option.some_bind, List.isEmpty_nil]
    rw [processCurve_orig, hA2, hD2, hP2, hSE]
    simp only [Option.some_bind]
    exact datingRest_nil 3 6 3 3 c8_series _
  · intro hA
    have h9 := (List.pairwise_cons.mp hA).1 ⟨6, Kind.T, 0⟩ (by simp)
    simp at h9

theorem C8_witness : AscendingByDti [⟨1, Kind.P, 1⟩] := by
  have hG : get_turnings [0, 1, 0] 1 = [⟨1, Kind.P, 1⟩] := by decide
  have hA : alternation_check [⟨1, Kind.P, 1⟩] = [⟨1, Kind.P, 1⟩] := by decide
  have hD : duration_check 6 [⟨1, Kind.P, 1⟩] = [⟨1, Kind.P, 1⟩] :=
    durationAux_stop 6 0 _ (by decide)
  have hP : phase_check 3 [⟨1, Kind.P, 1⟩] = [⟨1, Kind.P, 1⟩] :=
    phaseAux_stop 3 0 _ (by decide)
  have hSE : start_end_check [⟨1, Kind.P, 1⟩] [0, 1, 0] 0 = some [⟨1, Kind.P, 1⟩] := by decide
  have h : dating [0, 1, 0] [] 1 6 3 0 = some [⟨1, Kind.P, 1⟩] := by
    show (processCurve 6 3 0 [0, 1, 0] true (get_turnings [0, 1, 0] 1)).bind
        (datingRest 1 6 3 0 [0, 1, 0] []) = some [⟨1, Kind.P, 1⟩]
    rw [hG, processCurve_orig, hA, hD, hP, hSE]
    simp only [Option.some_bind]
    exact datingRest_nil 1 6 3 0 [0, 1, 0] _
  exact C8_dating_sorted_single_curve [0, 1, 0] 1 6 3 0 [⟨1, Kind.P, 1⟩] h
